import Mathlib

/-!
Shallow embedding of the role-permissions tool (Vue 3, TypeScript).

Source files embedded here:
- `src/types.ts` : the `Permission`, `Role`, `AppData` record types.
- the application root component (`src/unnamed/part_000` and
  `src/unnamed/part_001`, two styling revisions with identical script):
  the store mutations (`deletePermission`, ...) and the `importData`
  file-import handler.
- `src/components/RoleBuilder.vue` (and its revision
  `src/unnamed/part_003`) : the drop-merge resolver `handleDrop` and
  `removePermissionFromRole`; the script logic is identical in both
  revisions.
- `src/components/PermissionManager.vue` (and its revision
  `src/unnamed/part_002`) : the grouping computeds
  (`permissionsByCategory` in its two key-policy revisions) and the
  selection tracker (`toggleGroup`, identical in all revisions).

JavaScript `Set<string>` is modelled as `Finset String`; JS arrays as
`List`; the DOM drag transfer event is modelled by the parsed content of
its two data keys (`none` standing for an absent or empty-string key,
which is falsy in the source); emission of a `updateRole` event is
modelled by an `Option Role` result (`none` = no event emitted).
-/

namespace RoleTool

/-- Permission record, from src/types.ts.  `category` is an optional
string field. -/
structure Permission where
  id : String
  name : String
  description : String
  category : Option String
deriving DecidableEq, Repr

/-- Role record, from src/types.ts.  A role embeds value copies of its
permissions. -/
structure Role where
  id : String
  name : String
  description : String
  permissions : List Permission
deriving DecidableEq, Repr

/-- The in-memory store of App.vue: the two canonical collections. -/
structure AppState where
  permissions : List Permission
  roles : List Role
deriving DecidableEq, Repr

/-- `deletePermission` from App.vue: removes the permission from the
global collection and filters it out of every role (cascade). -/
def deletePermission (id : String) (st : AppState) : AppState :=
  { st with
    permissions := st.permissions.filter (fun p => p.id != id),
    roles := st.roles.map (fun role =>
      { role with permissions := role.permissions.filter (fun p => p.id != id) }) }

/-- The parsed content of the drag transfer event consumed by
`handleDrop` in RoleBuilder.vue.  `permissionsData` models
`event.dataTransfer.getData('permissions')` (the multi-item key),
`permissionData` models `getData('permission')` (the single-item key);
`none` stands for an absent or empty-string datum, which the source
treats as falsy. -/
structure DragEvent where
  permissionsData : Option (List Permission)
  permissionData : Option Permission
deriving DecidableEq, Repr

/-- `handleDrop` from RoleBuilder.vue.  Checks the multi-item key first;
filters the payload down to the permissions whose id is not already on
the role; emits an updated role (modelled by `some`) only when at least
one permission is added.  Falls back to the single-item key only when
the multi-item key carried no data. -/
def handleDrop (event : DragEvent) (role : Role) : Option Role :=
  match event.permissionsData with
  | some permissions =>
    let newPermissions := permissions.filter
      (fun permission => (role.permissions.find? (fun p => p.id == permission.id)).isNone)
    if newPermissions.length > 0 then
      some { role with permissions := role.permissions ++ newPermissions }
    else
      none
  | none =>
    match event.permissionData with
    | some permission =>
      if (role.permissions.find? (fun p => p.id == permission.id)).isNone then
        some { role with permissions := role.permissions ++ [permission] }
      else
        none
    | none => none

/-- The state of the target role after a drop: the emitted updated role
when an update event was emitted, the unchanged role otherwise. -/
def applyDrop (event : DragEvent) (role : Role) : Role :=
  (handleDrop event role).getD role

/-- `removePermissionFromRole` from RoleBuilder.vue: unconditionally
filters out the matching id and emits the updated role. -/
def removePermissionFromRole (role : Role) (permissionId : String) : Role :=
  { role with permissions := role.permissions.filter (fun p => p.id != permissionId) }

/-- Concrete test fixtures used by witness theorems. -/
def pA : Permission := ⟨"a", "users.view", "view users", none⟩

def pB : Permission := ⟨"b", "users.edit", "edit users", some "Users"⟩

def pC : Permission := ⟨"c", "posts.remove", "remove posts", some "Posts"⟩

def roleWithA : Role := ⟨"r1", "Admin", "all powers", [pA]⟩

def roleAB : Role := ⟨"r2", "Editor", "edits things", [pA, pB]⟩

/-- `toggleGroup` from PermissionManager.vue (identical in both
revisions).  If every member of the group is currently selected, the
member ids are all removed from the selection; otherwise they are all
added.  The JS `Set` copy plus `forEach`-mutation is modelled by a fold
over the group. -/
def toggleGroup (group : List Permission) (selectedPermissions : Finset String) :
    Finset String :=
  let allSelected := group.all (fun p => decide (p.id ∈ selectedPermissions))
  if allSelected then
    group.foldl (fun newSet p => newSet.erase p.id) selectedPermissions
  else
    group.foldl (fun newSet p => insert p.id newSet) selectedPermissions

/-- One step of the group-building loop of the grouping computeds in
PermissionManager.vue: `if (!groups[k]) groups[k] = []; groups[k].push(p)`
on a string-keyed object, modelled as an association list kept in key
insertion order. -/
def insertGrouped : List (String × List Permission) → String → Permission →
    List (String × List Permission)
  | [], k, p => [(k, [p])]
  | g :: gs, k, p =>
    if g.1 == k then (g.1, g.2 ++ [p]) :: gs
    else g :: insertGrouped gs k p

/-- The `forEach` accumulation of the grouping computeds, generic in the
key-extraction policy. -/
def buildGroups (key : Permission → String) (permissions : List Permission) :
    List (String × List Permission) :=
  permissions.foldl (fun gs p => insertGrouped gs (key p) p) []

/-- JS object indexing `groups[k]`, the empty list when the key is
absent. -/
def glookup : List (String × List Permission) → String → List Permission
  | [], _ => []
  | g :: gs, k => if g.1 == k then g.2 else glookup gs k

/-- The shared tail of the grouping computeds: sort the group keys, then
emit each group sorted by permission name.  JS default `sort()` on keys
and `localeCompare` on names are both modelled as the code-point order
on strings; the partition property does not depend on the comparator. -/
def groupByKey (key : Permission → String) (permissions : List Permission) :
    List (String × List Permission) :=
  let groups := buildGroups key permissions
  ((groups.map Prod.fst).mergeSort (fun a b => decide (a ≤ b))).map
    (fun k => (k, (glookup groups k).mergeSort (fun a b => decide (a.name ≤ b.name))))

/-- Category key of the first revision of PermissionManager.vue:
`permission.category || 'Uncategorized'`; an undefined category and the
empty string are both falsy. -/
def categoryKey (p : Permission) : String :=
  match p.category with
  | none => "Uncategorized"
  | some c => if c = "" then "Uncategorized" else c

/-- Category key of the second revision of PermissionManager.vue: the
part of `name` before the first dot, or "Uncategorized" when the name
contains no dot. -/
def nameCategoryKey (p : Permission) : String :=
  let parts := p.name.splitOn "."
  if parts.length > 1 then parts.headD "" else "Uncategorized"

/-- `permissionsByCategory` of the first revision. -/
def permissionsByCategory (permissions : List Permission) :
    List (String × List Permission) :=
  groupByKey categoryKey permissions

/-- `permissionsByCategory` of the second revision, deriving the
category from the name. -/
def permissionsByCategoryFromName (permissions : List Permission) :
    List (String × List Permission) :=
  groupByKey nameCategoryKey permissions

/-- JSON-like runtime values flowing through the `importData` handler of
App.vue (the output of `JSON.parse`).  Numbers are modelled as integers,
which covers the id payloads the import shapes exercise; `String(n)` on
an integer is its decimal notation, as in JS. -/
inductive JValue where
  | jnull : JValue
  | jbool : Bool → JValue
  | jnum : Int → JValue
  | jstr : String → JValue
  | jarr : List JValue → JValue
  | jobj : List (String × JValue) → JValue

mutual
/-- JS `String(v)` coercion on parsed JSON values: null, booleans and
integers print canonically, strings pass through, arrays join their
element strings with commas, objects print as "[object Object]". -/
def jstringify : JValue → String
  | .jnull => "null"
  | .jbool true => "true"
  | .jbool false => "false"
  | .jnum n => toString n
  | .jstr s => s
  | .jarr xs => String.intercalate "," (jstringifyElems xs)
  | .jobj _ => "[object Object]"

/-- Element strings of `Array.prototype.toString`: null elements become
the empty string. -/
def jstringifyElems : List JValue → List String
  | [] => []
  | .jnull :: vs => "" :: jstringifyElems vs
  | v :: vs => jstringify v :: jstringifyElems vs
end

/-- JS `String(x)` where `x` may be `undefined` (modelled as `none`),
as happens for a missing `id` property. -/
def jstringifyUndef : Option JValue → String
  | none => "undefined"
  | some v => jstringify v

/-- JS property read `v[key]` as used on parsed import data: reading a
property of null throws a TypeError (modelled as `Except.error`),
objects expose their fields, and every other value yields `undefined`
(modelled as `none`). -/
def jget : JValue → String → Except String (Option JValue)
  | .jnull, _ => .error "TypeError"
  | .jobj fs, key => .ok (fs.lookup key)
  | _, _ => .ok none

/-- JS object spread `{...v}`: objects contribute their fields, arrays
and strings contribute index-keyed fields, other primitives contribute
nothing. -/
def jspread : JValue → List (String × JValue)
  | .jobj fs => fs
  | .jarr xs => xs.enum.map (fun iv => (toString iv.1, iv.2))
  | .jstr s => s.toList.enum.map (fun ic => (toString ic.1, .jstr (String.singleton ic.2)))
  | _ => []

/-- The object literal `{...fields, key: v}`: overwrites the field in
place when present, appends it otherwise. -/
def setField (fs : List (String × JValue)) (key : String) (v : JValue) :
    List (String × JValue) :=
  if fs.any (fun f => f.1 == key) then
    fs.map (fun f => if f.1 == key then (f.1, v) else f)
  else
    fs ++ [(key, v)]

/-- JS `typeof v === 'object'`: true for null, arrays and objects. -/
def isTypeofObject : JValue → Bool
  | .jnull => true
  | .jarr _ => true
  | .jobj _ => true
  | _ => false

/-- JS `Object.values(v)` on the values reaching that call in
`importData`. -/
def jvalues : JValue → List JValue
  | .jobj fs => fs.map Prod.snd
  | .jarr xs => xs
  | .jstr s => s.toList.map (fun c => .jstr (String.singleton c))
  | _ => []

/-- The per-record transform `(p) => ({...p, id: String(p.id)})` used by
every branch of `importData`; throws when `p` is null. -/
def coerceId (p : JValue) : Except String JValue :=
  match jget p "id" with
  | .error e => .error e
  | .ok idv => .ok (.jobj (setField (jspread p) "id" (.jstr (jstringifyUndef idv))))

/-- `array.map(coerceId)`, left to right, aborting at the first throw. -/
def mapCoerce : List JValue → Except String (List JValue)
  | [] => .ok []
  | v :: vs =>
    match coerceId v with
    | .error e => .error e
    | .ok v' =>
      match mapCoerce vs with
      | .error e => .error e
      | .ok vs' => .ok (v' :: vs')

/-- The shape-normalization prefix of `importData`: a bare array and an
object without a `permissions` key are rewrapped as
`{permissions: values, roles: []}` with ids stringified; anything else
passes through.  Reading `.permissions` off a parsed null throws. -/
def normalizeImport (data : JValue) : Except String JValue :=
  match data with
  | .jarr xs =>
    match mapCoerce xs with
    | .error e => .error e
    | .ok ps => .ok (.jobj [("permissions", .jarr ps), ("roles", .jarr [])])
  | _ =>
    match jget data "permissions" with
    | .error e => .error e
    | .ok dp =>
      if dp.isNone && isTypeofObject data then
        match mapCoerce (jvalues data) with
        | .error e => .error e
        | .ok ps => .ok (.jobj [("permissions", .jarr ps), ("roles", .jarr [])])
      else
        .ok data

/-- The in-memory state touched by `importData`, kept at the JSON level:
the code performs no schema validation, so the stored records are
whatever objects the transform produced. -/
structure ImportState where
  permissions : List JValue
  roles : List JValue

/-- The `data.roles && Array.isArray(data.roles)` assignment step; the
Boolean reports whether the success dialog is reached.  A throw inside
the roles map keeps the state passed in (which may already hold the
newly assigned permissions: the catch block performs no rollback). -/
def importRolesStep (data : JValue) (st : ImportState) : ImportState × Bool :=
  match jget data "roles" with
  | .error _ => (st, false)
  | .ok dr =>
    match dr with
    | some (.jarr rs) =>
      match mapCoerce rs with
      | .error _ => (st, false)
      | .ok rs' => ({ st with roles := rs' }, true)
    | _ => (st, true)

/-- The `data.permissions && Array.isArray(data.permissions)`
assignment step, followed by the roles step. -/
def importPermissionsStep (data : JValue) (st : ImportState) : ImportState × Bool :=
  match jget data "permissions" with
  | .error _ => (st, false)
  | .ok dp =>
    match dp with
    | some (.jarr ps) =>
      match mapCoerce ps with
      | .error _ => (st, false)
      | .ok ps' => importRolesStep data { st with permissions := ps' }
    | _ => importRolesStep data st

/-- `importData` from App.vue, from the parse onwards: the input is the
result of `JSON.parse` on the file text (`none` when parsing threw), the
output is the new in-memory state plus a flag telling whether the
success dialog (`true`) or the error dialog (`false`) is shown. -/
def importData (parsed : Option JValue) (st : ImportState) : ImportState × Bool :=
  match parsed with
  | none => (st, false)
  | some data0 =>
    match normalizeImport data0 with
    | .error _ => (st, false)
    | .ok data => importPermissionsStep data st

/-- Whether a JSON value is a string (observation used to state the
id-coercion claims). -/
def isStringValue : JValue → Bool
  | .jstr _ => true
  | _ => false

/-- Relation between an imported record and its stored form: the stored
record's `id` field is the JS stringification of the original record's
`id` property. -/
def stringifiedFrom (orig res : JValue) : Prop :=
  ∃ iv, jget orig "id" = .ok iv ∧
    jget res "id" = .ok (some (.jstr (jstringifyUndef iv)))

/-- Concrete import fixtures: a canonical-shape payload carrying a role
with an embedded permission whose id is the number 7. -/
def nestedPermIn : JValue := .jobj [("id", .jnum 7), ("name", .jstr "a.b")]

def roleIn : JValue :=
  .jobj [("id", .jnum 1), ("name", .jstr "r"), ("permissions", .jarr [nestedPermIn])]

def canonicalIn : JValue :=
  .jobj [("permissions", .jarr []), ("roles", .jarr [roleIn])]

def roleOut : JValue :=
  .jobj [("id", .jstr "1"), ("name", .jstr "r"), ("permissions", .jarr [nestedPermIn])]

lemma find?_id_isNone_iff (perms : List Permission) (q : Permission) :
    (perms.find? (fun p => p.id == q.id)).isNone = true ↔
      ∀ p ∈ perms, p.id ≠ q.id := by
  rw [Option.isNone_iff_eq_none, List.find?_eq_none]
  simp

lemma find?_id_append (l₁ l₂ : List Permission) (q : Permission) :
    ((l₁ ++ l₂).find? (fun p => p.id == q.id)).isNone = true ↔
      ((l₁.find? (fun p => p.id == q.id)).isNone = true ∧
       (l₂.find? (fun p => p.id == q.id)).isNone = true) := by
  simp only [find?_id_isNone_iff, List.mem_append]
  constructor
  · intro h
    exact ⟨fun p hp => h p (Or.inl hp), fun p hp => h p (Or.inr hp)⟩
  · rintro ⟨h₁, h₂⟩ p (hp | hp)
    · exact h₁ p hp
    · exact h₂ p hp

/-- After a multi-item merge, re-filtering the same payload against the
updated permission list removes everything. -/
lemma refilter_eq_nil (ps : List Permission) (role : Role) :
    ps.filter (fun q =>
      ((role.permissions ++
          ps.filter (fun q' =>
            (role.permissions.find? (fun p => p.id == q'.id)).isNone)).find?
        (fun p => p.id == q.id)).isNone) = [] := by
  rw [List.filter_eq_nil_iff]
  intro q hq
  intro hcontra
  rw [find?_id_append] at hcontra
  obtain ⟨h₁, h₂⟩ := hcontra
  by_cases hmem : (role.permissions.find? (fun p => p.id == q.id)).isNone = true
  · -- q survives the first filter, so q itself sits in the appended tail
    rw [find?_id_isNone_iff] at h₂
    exact h₂ q (List.mem_filter.mpr ⟨hq, hmem⟩) rfl
  · -- some existing role permission already carries the id
    rw [find?_id_isNone_iff] at h₁ hmem
    push_neg at hmem
    obtain ⟨p, hp, hpid⟩ := hmem
    exact h₁ p hp hpid

lemma drop_then_drop_eq_none (event : DragEvent) (role : Role) :
    handleDrop event (applyDrop event role) = none := by
  obtain ⟨pml, psg⟩ := event
  cases pml with
  | some ps =>
    by_cases h : (ps.filter (fun q =>
        (role.permissions.find? (fun p => p.id == q.id)).isNone)).length > 0
    · have happ : applyDrop ⟨some ps, psg⟩ role =
          { role with permissions := role.permissions ++ ps.filter (fun q =>
              (role.permissions.find? (fun p => p.id == q.id)).isNone) } := by
        simp only [applyDrop, handleDrop, if_pos h, Option.getD_some]
      rw [happ]
      simp only [handleDrop]
      rw [refilter_eq_nil ps role]
      simp
    · have happ : applyDrop ⟨some ps, psg⟩ role = role := by
        simp only [applyDrop, handleDrop, if_neg h, Option.getD_none]
      rw [happ]
      simp only [handleDrop, if_neg h]
  | none =>
    cases psg with
    | some p =>
      by_cases h : (role.permissions.find? (fun q => q.id == p.id)).isNone = true
      · have happ : applyDrop ⟨none, some p⟩ role =
            { role with permissions := role.permissions ++ [p] } := by
          simp only [applyDrop, handleDrop, if_pos h, Option.getD_some]
        rw [happ]
        simp only [handleDrop]
        rw [if_neg]
        intro hcontra
        rw [find?_id_append] at hcontra
        obtain ⟨h₁, h₂⟩ := hcontra
        rw [find?_id_isNone_iff] at h₂
        exact h₂ p (List.mem_singleton_self p) rfl
      · have happ : applyDrop ⟨none, some p⟩ role = role := by
          simp only [applyDrop, handleDrop, if_neg h, Option.getD_none]
        rw [happ]
        simp only [handleDrop, if_neg h]
    | none =>
      simp [applyDrop, handleDrop]

/-- C2: drop-merge is idempotent.  For every payload (single permission,
list of permissions, or nothing) and every role, the second application
of the drop resolver to the updated role emits no event, and the
permissions list after two applications equals the list after one. -/
theorem resolveDrop_idempotent (event : DragEvent) (role : Role) :
    handleDrop event (applyDrop event role) = none ∧
    (applyDrop event (applyDrop event role)).permissions =
      (applyDrop event role).permissions := by
  refine ⟨drop_then_drop_eq_none event role, ?_⟩
  have : applyDrop event (applyDrop event role) = applyDrop event role := by
    show (handleDrop event (applyDrop event role)).getD (applyDrop event role) =
      applyDrop event role
    rw [drop_then_drop_eq_none event role]
    rfl
  rw [this]

/-- C6: the drop resolver gives the multi-item wire shape precedence.
When the multi-item key carries data the result is independent of the
single-item key (even for an empty array payload, which still suppresses
the single-item fallback); when the multi-item key is absent the payload
is resolved from the single-item key, exactly as a one-element list
would be. -/
theorem multi_key_precedence (ps : List Permission) (pd pd' : Option Permission)
    (p : Permission) (role : Role) :
    handleDrop ⟨some ps, pd⟩ role = handleDrop ⟨some ps, pd'⟩ role ∧
    handleDrop ⟨some [], pd⟩ role = none ∧
    handleDrop ⟨none, some p⟩ role = handleDrop ⟨some [p], none⟩ role := by
  refine ⟨rfl, by simp [handleDrop], ?_⟩
  by_cases h : (role.permissions.find? (fun q => q.id == p.id)).isNone = true
  · simp [handleDrop, h, List.filter_cons, List.filter_nil]
  · simp [handleDrop, h, List.filter_cons, List.filter_nil]

/-- C1: deleting a permission removes every permission with that id from
the global collection and from every role (cascade), while retaining
the other permissions, every role (with id, name and description
untouched), and every role-embedded permission with a different id. -/
theorem deletePermission_cascade (id : String) (st : AppState) :
    (∀ p ∈ (deletePermission id st).permissions, p.id ≠ id) ∧
    (∀ r ∈ (deletePermission id st).roles, ∀ p ∈ r.permissions, p.id ≠ id) ∧
    (∀ p ∈ st.permissions, p.id ≠ id → p ∈ (deletePermission id st).permissions) ∧
    ((deletePermission id st).roles.map (fun r => (r.id, r.name, r.description)) =
      st.roles.map (fun r => (r.id, r.name, r.description))) ∧
    (∀ r ∈ st.roles, ∀ p ∈ r.permissions, p.id ≠ id →
      ∃ r' ∈ (deletePermission id st).roles, r'.id = r.id ∧ p ∈ r'.permissions) := by
  refine ⟨?_, ?_, ?_, ?_, ?_⟩
  · intro p hp
    simp only [deletePermission, List.mem_filter, bne_iff_ne, ne_eq] at hp
    exact hp.2
  · intro r hr p hp
    simp only [deletePermission, List.mem_map] at hr
    obtain ⟨r₀, _, rfl⟩ := hr
    simp only [List.mem_filter, bne_iff_ne, ne_eq] at hp
    exact hp.2
  · intro p hp hne
    simp only [deletePermission, List.mem_filter, bne_iff_ne, ne_eq]
    exact ⟨hp, hne⟩
  · simp only [deletePermission, List.map_map]
    rfl
  · intro r hr p hp hne
    refine ⟨{ r with permissions := r.permissions.filter (fun p => p.id != id) }, ?_, rfl, ?_⟩
    · simp only [deletePermission, List.mem_map]
      exact ⟨r, hr, rfl⟩
    · simp only [List.mem_filter, bne_iff_ne, ne_eq]
      exact ⟨hp, hne⟩

/-- Witness for C1 at a concrete store: after deleting permission id
"a", the permission with id "b" is still in the global collection. -/
theorem deletePermission_cascade_witness :
    pB ∈ (deletePermission "a" ⟨[pA, pB], [roleAB]⟩).permissions :=
  (deletePermission_cascade "a" ⟨[pA, pB], [roleAB]⟩).2.2.1 pB (by decide) (by decide)

/-- C10: whenever the drop resolver emits an updated role, the new
permissions list is the old list unchanged (same entries, same order)
with the added permissions appended at the end; no added permission
shares an id with an existing entry (so existing entries are never
replaced by payload copies); the added segment is a subsequence of the
multi-item payload (payload order preserved), or exactly the single
payload permission. -/
theorem handleDrop_appends (event : DragEvent) (role upd : Role)
    (h : handleDrop event role = some upd) :
    upd.id = role.id ∧ upd.name = role.name ∧ upd.description = role.description ∧
    ∃ added : List Permission,
      upd.permissions = role.permissions ++ added ∧
      (∀ q ∈ added, ∀ p ∈ role.permissions, p.id ≠ q.id) ∧
      ((∃ ps, event.permissionsData = some ps ∧ added.Sublist ps) ∨
        (event.permissionsData = none ∧
          ∃ p, event.permissionData = some p ∧ added = [p])) := by
  obtain ⟨pml, psg⟩ := event
  cases pml with
  | some ps =>
    simp only [handleDrop] at h
    by_cases hl : (ps.filter (fun q =>
        (role.permissions.find? (fun p => p.id == q.id)).isNone)).length > 0
    · rw [if_pos hl, Option.some.injEq] at h
      subst h
      refine ⟨rfl, rfl, rfl,
        ps.filter (fun q => (role.permissions.find? (fun p => p.id == q.id)).isNone),
        rfl, ?_, Or.inl ⟨ps, rfl, List.filter_sublist ps⟩⟩
      intro q hq p hp
      rw [List.mem_filter, find?_id_isNone_iff] at hq
      exact hq.2 p hp
    · rw [if_neg hl] at h
      exact absurd h (by simp)
  | none =>
    cases psg with
    | some p =>
      simp only [handleDrop] at h
      by_cases hn : (role.permissions.find? (fun q => q.id == p.id)).isNone = true
      · rw [if_pos hn, Option.some.injEq] at h
        subst h
        refine ⟨rfl, rfl, rfl, [p], rfl, ?_, Or.inr ⟨rfl, p, rfl, rfl⟩⟩
        intro q hq p' hp'
        rw [List.mem_singleton] at hq
        subst hq
        rw [find?_id_isNone_iff] at hn
        exact hn p' hp'
      · rw [if_neg hn] at h
        exact absurd h (by simp)
    | none =>
      exact absurd h (by simp [handleDrop])

/-- Witness for C10 at a concrete drop: dropping the two-permission
payload onto a role already containing the first one keeps the updated
role id equal to the original role id. -/
theorem handleDrop_appends_witness :
    (Role.mk "r1" "Admin" "all powers" [pA, pB]).id = roleWithA.id :=
  (handleDrop_appends ⟨some [pA, pB], none⟩ roleWithA
    (Role.mk "r1" "Admin" "all powers" [pA, pB]) (by decide)).1

lemma foldl_erase_eq_sdiff (l : List Permission) (s : Finset String) :
    l.foldl (fun t p => t.erase p.id) s = s \ (l.map Permission.id).toFinset := by
  induction l generalizing s with
  | nil => simp
  | cons a l ih =>
    simp only [List.foldl_cons, ih, List.map_cons, List.toFinset_cons]
    rw [Finset.erase_eq, sdiff_sdiff, Finset.insert_eq, Finset.sup_eq_union]

lemma foldl_insert_eq_union (l : List Permission) (s : Finset String) :
    l.foldl (fun t p => insert p.id t) s = s ∪ (l.map Permission.id).toFinset := by
  induction l generalizing s with
  | nil => simp
  | cons a l ih =>
    simp only [List.foldl_cons, ih, List.map_cons, List.toFinset_cons]
    rw [Finset.insert_union, Finset.union_insert]

lemma all_mem_iff (group : List Permission) (s : Finset String) :
    group.all (fun p => decide (p.id ∈ s)) = true ↔ ∀ p ∈ group, p.id ∈ s := by
  simp [List.all_eq_true]

/-- Counterexample to C3 as stated: on a partially selected group the
double toggle does not restore the original selection.  Group of two
permissions with ids "a" and "b", original selection holding only "a":
the first toggle selects both, the second deselects both, leaving the
empty set rather than the original singleton. -/
theorem toggleGroup_not_involutive :
    toggleGroup [pA, pB] (toggleGroup [pA, pB] {"a"}) ≠ ({"a"} : Finset String) := by
  decide

/-- C3 amended: toggleGroup applied twice to an unchanged group restores
the original selection set whenever the group is not partially selected,
that is, whenever every member id is selected or no member id is
selected (both hold for an empty group).  For a partially selected group
the double application instead removes all member ids. -/
theorem toggleGroup_involutive_of_uniform (group : List Permission)
    (sel : Finset String)
    (h : (∀ p ∈ group, p.id ∈ sel) ∨ (∀ p ∈ group, p.id ∉ sel)) :
    toggleGroup group (toggleGroup group sel) = sel := by
  cases hg : group with
  | nil =>
    simp [toggleGroup]
  | cons q rest =>
    subst hg
    rcases h with h | h
    · -- every member selected: erase all, then insert all back
      have hall : (q :: rest).all (fun p => decide (p.id ∈ sel)) = true :=
        (all_mem_iff _ _).mpr h
      have h1 : toggleGroup (q :: rest) sel =
          sel \ ((q :: rest).map Permission.id).toFinset := by
        rw [toggleGroup, if_pos hall, foldl_erase_eq_sdiff]
      have hq : q.id ∉ sel \ ((q :: rest).map Permission.id).toFinset := by
        intro hmem
        exact (Finset.mem_sdiff.mp hmem).2
          (List.mem_toFinset.mpr
            (List.mem_map_of_mem Permission.id (List.mem_cons_self q rest)))
      have hall2 : (q :: rest).all (fun p =>
          decide (p.id ∈ sel \ ((q :: rest).map Permission.id).toFinset)) ≠ true := by
        intro hcon
        rw [all_mem_iff] at hcon
        exact hq (hcon q (List.mem_cons_self q rest))
      rw [h1, toggleGroup, if_neg hall2, foldl_insert_eq_union,
        Finset.sdiff_union_self_eq_union, Finset.union_eq_left]
      intro x hx
      rw [List.mem_toFinset, List.mem_map] at hx
      obtain ⟨p, hp, rfl⟩ := hx
      exact h p hp
    · -- no member selected: insert all, then erase all again
      have hnall : (q :: rest).all (fun p => decide (p.id ∈ sel)) ≠ true := by
        intro hcon
        rw [all_mem_iff] at hcon
        exact h q (List.mem_cons_self q rest) (hcon q (List.mem_cons_self q rest))
      have h1 : toggleGroup (q :: rest) sel =
          sel ∪ ((q :: rest).map Permission.id).toFinset := by
        rw [toggleGroup, if_neg hnall, foldl_insert_eq_union]
      have hall2 : (q :: rest).all (fun p =>
          decide (p.id ∈ sel ∪ ((q :: rest).map Permission.id).toFinset)) = true := by
        rw [all_mem_iff]
        intro p hp
        refine Finset.mem_union_right _ ?_
        rw [List.mem_toFinset, List.mem_map]
        exact ⟨p, hp, rfl⟩
      rw [h1, toggleGroup, if_pos hall2, foldl_erase_eq_sdiff,
        Finset.union_sdiff_right, Finset.sdiff_eq_self_iff_disjoint]
      rw [Finset.disjoint_right]
      intro x hx
      rw [List.mem_toFinset, List.mem_map] at hx
      obtain ⟨p, hp, rfl⟩ := hx
      exact h p hp

/-- Witness for amended C3: double toggle on the empty selection (no
member selected) restores the empty selection. -/
theorem toggleGroup_involutive_witness :
    toggleGroup [pA, pB] (toggleGroup [pA, pB] (∅ : Finset String)) = ∅ :=
  toggleGroup_involutive_of_uniform [pA, pB] ∅ (Or.inr (by decide))

lemma mergeFilter_mem (ps : List Permission) (role : Role) (q : Permission) :
    q ∈ ps.filter
        (fun q' => (role.permissions.find? (fun p => p.id == q'.id)).isNone) ↔
      q ∈ ps ∧ ∀ p ∈ role.permissions, p.id ≠ q.id := by
  rw [List.mem_filter, find?_id_isNone_iff]

lemma mergeFilter_nodup (ps : List Permission) (role : Role)
    (hps : (ps.map Permission.id).Nodup) :
    ((ps.filter
        (fun q' => (role.permissions.find? (fun p => p.id == q'.id)).isNone)).map
      Permission.id).Nodup :=
  hps.sublist (List.Sublist.map Permission.id (List.filter_sublist ps))

lemma merged_nodup (ps : List Permission) (role : Role)
    (hps : (ps.map Permission.id).Nodup)
    (hrole : (role.permissions.map Permission.id).Nodup) :
    (((role.permissions ++ ps.filter
        (fun q' => (role.permissions.find? (fun p => p.id == q'.id)).isNone)).map
      Permission.id).Nodup) := by
  rw [List.map_append, List.nodup_append]
  refine ⟨hrole, mergeFilter_nodup ps role hps, ?_⟩
  intro a ha hb
  rw [List.mem_map] at ha hb
  obtain ⟨p, hp, rfl⟩ := ha
  obtain ⟨q, hq, hqa⟩ := hb
  rw [mergeFilter_mem] at hq
  exact hq.2 p hp hqa.symm

lemma append_singleton_nodup (role : Role) (p : Permission)
    (hrole : (role.permissions.map Permission.id).Nodup)
    (hp : ∀ p' ∈ role.permissions, p'.id ≠ p.id) :
    (((role.permissions ++ [p]).map Permission.id).Nodup) := by
  rw [List.map_append, List.nodup_append]
  refine ⟨hrole, List.nodup_singleton p.id, ?_⟩
  intro a ha hb
  rw [List.mem_map] at ha
  obtain ⟨p', hp', rfl⟩ := ha
  rw [List.map_singleton, List.mem_singleton] at hb
  exact hp p' hp' hb

/-- Counterexample to C4 as stated: a payload list that repeats the same
permission twice creates a duplicate entry on the target role.  Dropping
the two-element payload repeating permission pC onto a role that holds
only pA emits a role whose permissions list carries the id "c" twice. -/
theorem handleDrop_duplicate_payload_cex :
    handleDrop ⟨some [pC, pC], none⟩ roleWithA =
      some (Role.mk "r1" "Admin" "all powers" [pA, pC, pC]) ∧
    ¬ (([pA, pC, pC].map Permission.id).Nodup) := by
  constructor
  · rfl
  · decide

/-- C4 amended: for a multi-item drop whose payload contains no two
permissions with the same id, the role gains exactly the payload
permissions whose id is not already on the role; exactly one update
event, carrying the full new role, is emitted when at least one
permission is added, and none when the merge adds nothing; the added
segment has pairwise distinct ids, so no duplicate entry is created on
a role whose permission ids were distinct. -/
theorem handleDrop_multi_merge (ps : List Permission) (pd : Option Permission)
    (role : Role) (hps : (ps.map Permission.id).Nodup) :
    ∀ added, added = ps.filter
        (fun q => (role.permissions.find? (fun p => p.id == q.id)).isNone) →
      (∀ q, q ∈ added ↔ q ∈ ps ∧ ∀ p ∈ role.permissions, p.id ≠ q.id) ∧
      (handleDrop ⟨some ps, pd⟩ role = none ↔ added = []) ∧
      (∀ upd, handleDrop ⟨some ps, pd⟩ role = some upd →
        upd = { role with permissions := role.permissions ++ added }) ∧
      (added.map Permission.id).Nodup ∧
      ((role.permissions.map Permission.id).Nodup →
        ((role.permissions ++ added).map Permission.id).Nodup) := by
  intro added ha
  subst ha
  refine ⟨fun q => mergeFilter_mem ps role q, ?_, ?_, mergeFilter_nodup ps role hps,
    merged_nodup ps role hps⟩
  · simp only [handleDrop]
    by_cases hl : (ps.filter (fun q =>
        (role.permissions.find? (fun p => p.id == q.id)).isNone)).length > 0
    · rw [if_pos hl]
      constructor
      · intro hcon
        exact absurd hcon (by simp)
      · intro hnil
        rw [hnil] at hl
        exact absurd hl (by simp)
    · rw [if_neg hl]
      constructor
      · intro _
        rw [← List.length_eq_zero]
        omega
      · intro _
        rfl
  · intro upd h
    simp only [handleDrop] at h
    by_cases hl : (ps.filter (fun q =>
        (role.permissions.find? (fun p => p.id == q.id)).isNone)).length > 0
    · rw [if_pos hl, Option.some.injEq] at h
      exact h.symm
    · rw [if_neg hl] at h
      exact absurd h (by simp)

/-- Witness for amended C4, at the three-permission payload of which one
is already on the role: the resolver emits exactly the role extended by
the two missing permissions. -/
theorem handleDrop_multi_merge_witness :
    handleDrop ⟨some [pA, pB, pC], none⟩ roleWithA = none ↔ [pB, pC] = [] :=
  ((handleDrop_multi_merge [pA, pB, pC] none roleWithA (by decide)
    [pB, pC] (by rfl)).2).1

/-- Counterexample to C5 as stated: the claim quantifies over every
payload, but a list payload repeating one id makes the drop resolver
produce a role with two entries of that id even though the starting
role had pairwise distinct ids. -/
theorem role_nodup_violated_cex :
    ((roleWithA.permissions.map Permission.id).Nodup) ∧
    applyDrop ⟨some [pB, pB], none⟩ roleWithA =
      Role.mk "r1" "Admin" "all powers" [pA, pB, pB] ∧
    ¬ (((applyDrop ⟨some [pB, pB], none⟩ roleWithA).permissions.map
        Permission.id).Nodup) := by
  refine ⟨by decide, rfl, by decide⟩

/-- C5 amended: starting from a role whose permission ids are pairwise
distinct, the single-item drop, the multi-item drop restricted to
payloads with pairwise distinct ids, the explicit removal operation and
the deletePermission cascade all produce roles whose permission ids are
again pairwise distinct. -/
theorem role_nodup_preserved (role : Role)
    (hrole : (role.permissions.map Permission.id).Nodup) :
    (∀ p : Permission,
      (((applyDrop ⟨none, some p⟩ role).permissions.map Permission.id).Nodup)) ∧
    (∀ ps : List Permission, (ps.map Permission.id).Nodup → ∀ pd,
      (((applyDrop ⟨some ps, pd⟩ role).permissions.map Permission.id).Nodup)) ∧
    (∀ permissionId,
      (((removePermissionFromRole role permissionId).permissions.map
        Permission.id).Nodup)) ∧
    (∀ id st, (∀ r ∈ st.roles, (r.permissions.map Permission.id).Nodup) →
      ∀ r ∈ (deletePermission id st).roles,
        ((r.permissions.map Permission.id).Nodup)) := by
  refine ⟨?_, ?_, ?_, ?_⟩
  · intro p
    simp only [applyDrop, handleDrop]
    by_cases hn : (role.permissions.find? (fun q => q.id == p.id)).isNone = true
    · rw [if_pos hn, Option.getD_some]
      refine append_singleton_nodup role p hrole ?_
      rw [find?_id_isNone_iff] at hn
      exact hn
    · rw [if_neg hn, Option.getD_none]
      exact hrole
  · intro ps hps pd
    simp only [applyDrop, handleDrop]
    by_cases hl : (ps.filter (fun q =>
        (role.permissions.find? (fun p => p.id == q.id)).isNone)).length > 0
    · rw [if_pos hl, Option.getD_some]
      exact merged_nodup ps role hps hrole
    · rw [if_neg hl, Option.getD_none]
      exact hrole
  · intro permissionId
    exact hrole.sublist
      (List.Sublist.map Permission.id (List.filter_sublist role.permissions))
  · intro id st hall r hr
    simp only [deletePermission, List.mem_map] at hr
    obtain ⟨r₀, hr₀, rfl⟩ := hr
    exact (hall r₀ hr₀).sublist
      (List.Sublist.map Permission.id (List.filter_sublist r₀.permissions))

/-- Witness for amended C5: removing id "a" from the concrete role keeps
its permission ids pairwise distinct. -/
theorem role_nodup_preserved_witness :
    (((removePermissionFromRole roleAB "a").permissions.map
      Permission.id).Nodup) :=
  (role_nodup_preserved roleAB (by decide)).2.2.1 "a"

lemma glookup_cons (g : String × List Permission)
    (gs : List (String × List Permission)) (k : String) :
    glookup (g :: gs) k = if g.1 == k then g.2 else glookup gs k :=
  rfl

lemma glookup_nil (k : String) : glookup [] k = [] := rfl

lemma glookup_insertGrouped (gs : List (String × List Permission))
    (k : String) (p : Permission) (k' : String) :
    glookup (insertGrouped gs k p) k' =
      glookup gs k' ++ (if k = k' then [p] else []) := by
  induction gs with
  | nil =>
    by_cases h : k = k'
    · subst h
      simp [insertGrouped, glookup_cons, glookup_nil]
    · simp [insertGrouped, glookup_cons, glookup_nil, h]
  | cons g gs ih =>
    by_cases hk : g.1 = k
    · by_cases hk' : g.1 = k'
      · have hkk' : k = k' := hk.symm.trans hk'
        subst hkk'
        simp [insertGrouped, glookup_cons, hk]
      · have hkk' : ¬ k = k' := fun hcon => hk' (hk.trans hcon)
        subst hk
        simp [insertGrouped, glookup_cons, hk', hkk']
    · by_cases hk' : g.1 = k'
      · have hkk' : ¬ k = k' := fun hcon => hk (hcon ▸ hk')
        subst hk'
        simp [insertGrouped, glookup_cons, hk, hkk', ih]
      · simp [insertGrouped, glookup_cons, hk, hk', ih]

lemma keys_insertGrouped_mem (gs : List (String × List Permission))
    (k : String) (p : Permission) (k' : String) :
    k' ∈ (insertGrouped gs k p).map Prod.fst ↔
      k' ∈ gs.map Prod.fst ∨ k' = k := by
  induction gs with
  | nil =>
    simp [insertGrouped]
  | cons g gs ih =>
    by_cases hk : g.1 = k
    · simp [insertGrouped, hk]
      exact fun h => Or.inl h
    · simp only [insertGrouped, if_neg (fun hb => hk (beq_iff_eq.mp hb)),
        List.map_cons, List.mem_cons, ih]
      tauto

lemma keys_insertGrouped_nodup (gs : List (String × List Permission))
    (k : String) (p : Permission) (h : (gs.map Prod.fst).Nodup) :
    ((insertGrouped gs k p).map Prod.fst).Nodup := by
  induction gs with
  | nil =>
    simp [insertGrouped]
  | cons g gs ih =>
    rw [List.map_cons, List.nodup_cons] at h
    by_cases hk : g.1 = k
    · rw [insertGrouped, if_pos (beq_iff_eq.mpr hk), List.map_cons,
        List.nodup_cons]
      exact h
    · rw [insertGrouped, if_neg (fun hb => hk (beq_iff_eq.mp hb)),
        List.map_cons, List.nodup_cons]
      refine ⟨?_, ih h.2⟩
      rw [keys_insertGrouped_mem]
      rintro (hc | hc)
      · exact h.1 hc
      · exact hk hc

lemma glookup_foldl (key : Permission → String) (P : List Permission) :
    ∀ (gs : List (String × List Permission)) (k : String),
      glookup (P.foldl (fun gs p => insertGrouped gs (key p) p) gs) k =
        glookup gs k ++ P.filter (fun p => key p == k) := by
  induction P with
  | nil =>
    intro gs k
    simp
  | cons p P ih =>
    intro gs k
    rw [List.foldl_cons, ih, glookup_insertGrouped, List.filter_cons]
    by_cases h : key p = k
    · rw [if_pos h, if_pos (beq_iff_eq.mpr h), List.append_assoc,
        List.singleton_append]
    · rw [if_neg h, if_neg (fun hb => h (beq_iff_eq.mp hb)), List.append_nil]

lemma keys_foldl_mem (key : Permission → String) (P : List Permission) :
    ∀ (gs : List (String × List Permission)) (k : String),
      k ∈ (P.foldl (fun gs p => insertGrouped gs (key p) p) gs).map Prod.fst ↔
        k ∈ gs.map Prod.fst ∨ k ∈ P.map key := by
  induction P with
  | nil =>
    intro gs k
    simp
  | cons p P ih =>
    intro gs k
    rw [List.foldl_cons, ih, keys_insertGrouped_mem, List.map_cons,
      List.mem_cons]
    tauto

lemma keys_foldl_nodup (key : Permission → String) (P : List Permission) :
    ∀ (gs : List (String × List Permission)),
      (gs.map Prod.fst).Nodup →
      ((P.foldl (fun gs p => insertGrouped gs (key p) p) gs).map Prod.fst).Nodup := by
  induction P with
  | nil =>
    intro gs h
    exact h
  | cons p P ih =>
    intro gs h
    rw [List.foldl_cons]
    exact ih _ (keys_insertGrouped_nodup gs (key p) p h)

lemma glookup_buildGroups (key : Permission → String) (P : List Permission)
    (k : String) :
    glookup (buildGroups key P) k = P.filter (fun p => key p == k) := by
  rw [buildGroups, glookup_foldl]
  rfl

lemma keys_buildGroups_mem (key : Permission → String) (P : List Permission)
    (k : String) :
    k ∈ (buildGroups key P).map Prod.fst ↔ k ∈ P.map key := by
  rw [buildGroups, keys_foldl_mem]
  simp

lemma keys_buildGroups_nodup (key : Permission → String) (P : List Permission) :
    ((buildGroups key P).map Prod.fst).Nodup := by
  rw [buildGroups]
  exact keys_foldl_nodup key P [] (by simp)

lemma flatMap_perm_congr (ks : List String) (f g : String → List Permission)
    (h : ∀ k ∈ ks, (f k).Perm (g k)) :
    (ks.flatMap f).Perm (ks.flatMap g) := by
  induction ks with
  | nil =>
    exact List.Perm.refl _
  | cons k ks ih =>
    rw [List.flatMap_cons, List.flatMap_cons]
    exact (h k (List.mem_cons_self k ks)).append
      (ih (fun k' hk' => h k' (List.mem_cons_of_mem k hk')))

lemma count_flatMap_filter (key : Permission → String) (P : List Permission)
    (x : Permission) :
    ∀ (ks : List String), ks.Nodup →
      (ks.flatMap (fun k => P.filter (fun p => key p == k))).count x =
        if key x ∈ ks then P.count x else 0 := by
  intro ks
  induction ks with
  | nil =>
    intro _
    simp
  | cons k ks ih =>
    intro hnd
    rw [List.flatMap_cons, List.count_append, ih hnd.of_cons]
    by_cases hx : key x = k
    · subst hx
      rw [if_pos (List.mem_cons_self _ ks),
        if_neg ((List.nodup_cons.mp hnd).1)]
      have hcf : (P.filter (fun p => key p == key x)).count x = P.count x :=
        List.count_filter (by simp)
      rw [Nat.add_zero, hcf]
    · have h0 : (P.filter (fun p => key p == k)).count x = 0 := by
        rw [List.count_eq_zero]
        intro hmem
        exact hx (beq_iff_eq.mp (List.mem_filter.mp hmem).2)
      rw [h0]
      by_cases h2 : key x ∈ ks
      · rw [if_pos h2, if_pos (List.mem_cons_of_mem k h2), Nat.zero_add]
      · rw [if_neg h2, if_neg (fun hc => (List.mem_cons.mp hc).elim hx h2)]

lemma flatMap_filter_perm (key : Permission → String) (P : List Permission)
    (ks : List String) (hnd : ks.Nodup) (hcov : ∀ p ∈ P, key p ∈ ks) :
    (ks.flatMap (fun k => P.filter (fun p => key p == k))).Perm P := by
  rw [List.perm_iff_count]
  intro x
  rw [count_flatMap_filter key P x ks hnd]
  by_cases h : key x ∈ ks
  · rw [if_pos h]
  · rw [if_neg h]
    symm
    rw [List.count_eq_zero]
    intro hx
    exact h (hcov x hx)

/-- Partition property of the generic grouping pipeline: the groups
concatenate to a permutation of the input, and every input permission
lies in exactly one group. -/
lemma groupByKey_partition (key : Permission → String) (P : List Permission) :
    ((groupByKey key P).flatMap Prod.snd).Perm P ∧
      ∀ p ∈ P, ∃! g, g ∈ groupByKey key P ∧ p ∈ g.2 := by
  have hsortperm : (((buildGroups key P).map Prod.fst).mergeSort
      (fun a b => decide (a ≤ b))).Perm ((buildGroups key P).map Prod.fst) :=
    List.mergeSort_perm _ _
  have hnd : (((buildGroups key P).map Prod.fst).mergeSort
      (fun a b => decide (a ≤ b))).Nodup :=
    hsortperm.nodup_iff.mpr (keys_buildGroups_nodup key P)
  have hcov : ∀ p ∈ P, key p ∈ ((buildGroups key P).map Prod.fst).mergeSort
      (fun a b => decide (a ≤ b)) := by
    intro p hp
    rw [hsortperm.mem_iff, keys_buildGroups_mem]
    exact List.mem_map_of_mem key hp
  have hmem_group : ∀ (k : String) (p : Permission),
      p ∈ (glookup (buildGroups key P) k).mergeSort
          (fun a b => decide (a.name ≤ b.name)) ↔
        p ∈ P ∧ key p = k := by
    intro k p
    rw [(List.mergeSort_perm _ _).mem_iff, glookup_buildGroups,
      List.mem_filter, beq_iff_eq]
  constructor
  · rw [groupByKey, List.flatMap_map]
    refine List.Perm.trans ?_ (flatMap_filter_perm key P _ hnd hcov)
    exact flatMap_perm_congr _ _ _
      (fun k _ => by rw [glookup_buildGroups]; exact List.mergeSort_perm _ _)
  · intro p hp
    refine ⟨(key p, (glookup (buildGroups key P) (key p)).mergeSort
      (fun a b => decide (a.name ≤ b.name))), ⟨?_, ?_⟩, ?_⟩
    · rw [groupByKey, List.mem_map]
      exact ⟨key p, hcov p hp, rfl⟩
    · rw [hmem_group]
      exact ⟨hp, rfl⟩
    · rintro g' ⟨hg', hpg'⟩
      rw [groupByKey, List.mem_map] at hg'
      obtain ⟨k', _, rfl⟩ := hg'
      have : p ∈ P ∧ key p = k' := (hmem_group k' p).mp hpg'
      rw [← this.2]

/-- C7: both revisions of `permissionsByCategory` (explicit category
field with "Uncategorized" fallback, and name-prefix derivation)
partition the input collection exactly: the groups concatenate to a
permutation of the input, and every input permission lies in exactly
one group. -/
theorem groupByCategory_partition (P : List Permission) :
    (((permissionsByCategory P).flatMap Prod.snd).Perm P ∧
      ∀ p ∈ P, ∃! g, g ∈ permissionsByCategory P ∧ p ∈ g.2) ∧
    (((permissionsByCategoryFromName P).flatMap Prod.snd).Perm P ∧
      ∀ p ∈ P, ∃! g, g ∈ permissionsByCategoryFromName P ∧ p ∈ g.2) :=
  ⟨groupByKey_partition categoryKey P, groupByKey_partition nameCategoryKey P⟩

/-- Witness for C7 on a concrete two-permission collection: pA lies in
exactly one category group. -/
theorem groupByCategory_partition_witness :
    ∃! g, g ∈ permissionsByCategory [pA, pB] ∧ pA ∈ g.2 :=
  (groupByCategory_partition [pA, pB]).1.2 pA (List.mem_cons_self pA [pB])

lemma lookup_setField (fs : List (String × JValue)) (k : String) (v : JValue) :
    (setField fs k v).lookup k = some v := by
  rw [setField]
  by_cases h : fs.any (fun f => f.1 == k) = true
  · rw [if_pos h]
    induction fs with
    | nil => simp at h
    | cons f fs ih =>
      obtain ⟨fk, fv⟩ := f
      rw [List.any_cons, Bool.or_eq_true] at h
      by_cases hf : ((fk, fv).1 == k) = true
      · have hk : (k == fk) = true := by
          rw [beq_iff_eq] at hf ⊢
          exact hf.symm
        rw [List.map_cons, if_pos hf]
        simp [List.lookup, hk]
      · have hany : fs.any (fun f => f.1 == k) = true := by
          rcases h with h | h
          · exact absurd h hf
          · exact h
        have hk : (k == fk) = false := by
          rw [beq_eq_false_iff_ne]
          intro hcon
          exact hf (beq_iff_eq.mpr hcon.symm)
        rw [List.map_cons, if_neg hf]
        simp only [List.lookup, hk]
        exact ih hany
  · rw [if_neg h]
    induction fs with
    | nil => simp [List.lookup]
    | cons f fs ih =>
      rw [List.any_cons, Bool.or_eq_true] at h
      push_neg at h
      have hk : (k == f.1) = false := by
        rw [beq_eq_false_iff_ne]
        intro hcon
        exact h.1 (beq_iff_eq.mpr hcon.symm)
      rw [List.cons_append]
      simp only [List.lookup, hk]
      exact ih h.2

lemma coerceId_ok (p q : JValue) (h : coerceId p = .ok q) : stringifiedFrom p q := by
  rw [coerceId] at h
  cases hg : jget p "id" with
  | error e =>
    rw [hg] at h
    exact absurd h (by simp)
  | ok iv =>
    rw [hg] at h
    injection h with h'
    refine ⟨iv, hg, ?_⟩
    rw [← h']
    show Except.ok ((setField (jspread p) "id" (.jstr (jstringifyUndef iv))).lookup "id") = _
    rw [lookup_setField]

lemma mapCoerce_rel (xs : List JValue) :
    ∀ ys, mapCoerce xs = .ok ys →
      List.Forall₂ (fun a b => coerceId a = .ok b) xs ys := by
  induction xs with
  | nil =>
    intro ys h
    injection h with h'
    rw [← h']
    exact List.Forall₂.nil
  | cons v vs ih =>
    intro ys h
    rw [mapCoerce] at h
    cases hc : coerceId v with
    | error e =>
      rw [hc] at h
      exact absurd h (by simp)
    | ok v' =>
      rw [hc] at h
      cases hm : mapCoerce vs with
      | error e =>
        rw [hm] at h
        exact absurd h (by simp)
      | ok vs' =>
        rw [hm] at h
        injection h with h'
        rw [← h']
        exact List.Forall₂.cons hc (ih vs' hm)

lemma stringified_step (p q r : JValue) (h1 : stringifiedFrom p q)
    (h2 : coerceId q = .ok r) : stringifiedFrom p r := by
  obtain ⟨iv, hp, hq⟩ := h1
  obtain ⟨iv2, hq2, hr⟩ := coerceId_ok q r h2
  rw [hq] at hq2
  injection hq2 with h'
  refine ⟨iv, hp, ?_⟩
  rw [hr, ← h']
  simp [jstringifyUndef, jstringify]

lemma mapCoerce_twice (xs ys zs : List JValue) (h1 : mapCoerce xs = .ok ys)
    (h2 : mapCoerce ys = .ok zs) : List.Forall₂ stringifiedFrom xs zs := by
  have f1 : List.Forall₂ stringifiedFrom xs ys :=
    (mapCoerce_rel xs ys h1).imp (fun a b hab => coerceId_ok a b hab)
  have f2 := mapCoerce_rel ys zs h2
  clear h1 h2
  induction f1 generalizing zs with
  | nil =>
    cases f2
    exact List.Forall₂.nil
  | cons hab hrest ih =>
    cases f2 with
    | cons hbc hrest2 =>
      exact List.Forall₂.cons (stringified_step _ _ _ hab hbc) (ih _ hrest2)

lemma importWrapped (ps' : List JValue) (st st' : ImportState)
    (h : importPermissionsStep
      (.jobj [("permissions", .jarr ps'), ("roles", .jarr [])]) st = (st', true)) :
    ∃ ps'', mapCoerce ps' = .ok ps'' ∧ st' = ⟨ps'', []⟩ := by
  have h' : (match mapCoerce ps' with
      | Except.error _ => (st, false)
      | Except.ok ps'' =>
        importRolesStep (.jobj [("permissions", .jarr ps'), ("roles", .jarr [])])
          { st with permissions := ps'' }) = (st', true) := h
  clear h
  split at h'
  · simp at h'
  · rename_i ps'' hm
    have h2 : (ImportState.mk ps'' [], true) = (st', true) := h'
    injection h2 with ha hb
    exact ⟨ps'', hm, ha.symm⟩

/-- Counterexample to C9 as stated: the text "7" is valid JSON but not
shaped as an object, so per the claim the import should fail with a
failure message; the code instead reaches the success dialog (flag
true), with the state unchanged. -/
theorem import_number_success_cex :
    isTypeofObject (.jnum 7) = false ∧
    importData (some (.jnum 7)) ⟨[], []⟩ = (⟨[], []⟩, true) :=
  ⟨rfl, rfl⟩

/-- C9 amended: an unparsable text (`none`) or a text parsing to JSON
null makes the import fail: the state is left exactly unchanged and the
failure dialog is shown instead of the error propagating; a valid-JSON
primitive (boolean, number or string) is not treated as a failure: the
state is also left unchanged but the success dialog is shown. -/
theorem import_error_paths (st : ImportState) (v : JValue) :
    importData none st = (st, false) ∧
    importData (some .jnull) st = (st, false) ∧
    (((∃ b, v = JValue.jbool b) ∨ (∃ n, v = JValue.jnum n) ∨
        (∃ s, v = JValue.jstr s)) →
      importData (some v) st = (st, true)) := by
  refine ⟨rfl, rfl, ?_⟩
  rintro (⟨b, rfl⟩ | ⟨n, rfl⟩ | ⟨s, rfl⟩)
  · rfl
  · rfl
  · rfl

/-- Witness for amended C9: importing the text that parses to the JSON
string "hello" keeps the single stored permission and reports success. -/
theorem import_error_paths_witness :
    importData (some (.jstr "hello")) ⟨[JValue.jnum 0], []⟩ =
      (⟨[JValue.jnum 0], []⟩, true) :=
  (import_error_paths ⟨[JValue.jnum 0], []⟩ (.jstr "hello")).2.2
    (Or.inr (Or.inr ⟨"hello", rfl⟩))

/-- Counterexample to C8 as stated: importing the canonical shape whose
role embeds a permission with numeric id 7 stores the role with its own
id stringified but the embedded permission kept verbatim, so the
resulting state holds an id field that is still the number 7, not a
string. -/
theorem import_nested_id_not_stringified_cex :
    importData (some canonicalIn) ⟨[], []⟩ = (⟨[], [roleOut]⟩, true) ∧
    jget roleOut "permissions" = .ok (some (.jarr [nestedPermIn])) ∧
    jget nestedPermIn "id" = .ok (some (.jnum 7)) ∧
    isStringValue (.jnum 7) = false :=
  ⟨rfl, rfl, rfl, rfl⟩

/-- C8 amended: in all three accepted import shapes, the top-level id
field of every stored permission record and of every stored role record
is the string obtained by JS-stringifying the record's original id
value; ids nested inside a role's embedded permissions list are not
touched.  Importing the bare array `[{"id": 7, "name": "a.b"}]` yields
exactly one permission whose id is the string "7" and an empty roles
list. -/
theorem importData_ids_stringified (st st' : ImportState) :
    (∀ ps, importData (some (.jarr ps)) st = (st', true) →
      st'.roles = [] ∧ List.Forall₂ stringifiedFrom ps st'.permissions) ∧
    (∀ fs, fs.lookup "permissions" = none →
      importData (some (.jobj fs)) st = (st', true) →
      st'.roles = [] ∧
      List.Forall₂ stringifiedFrom (fs.map Prod.snd) st'.permissions) ∧
    (∀ fs ps, fs.lookup "permissions" = some (.jarr ps) →
      importData (some (.jobj fs)) st = (st', true) →
      List.Forall₂ stringifiedFrom ps st'.permissions ∧
      ∀ rs, fs.lookup "roles" = some (.jarr rs) →
        List.Forall₂ stringifiedFrom rs st'.roles) ∧
    importData (some (.jarr [.jobj [("id", .jnum 7), ("name", .jstr "a.b")]])) st =
      (⟨[.jobj [("id", .jstr "7"), ("name", .jstr "a.b")]], []⟩, true) := by
  refine ⟨?_, ?_, ?_, rfl⟩
  · -- bare array shape
    intro ps h
    cases hm : mapCoerce ps with
    | error e =>
      rw [show importData (some (.jarr ps)) st = (st, false) by
        simp [importData, normalizeImport, hm]] at h
      simp at h
    | ok ps1 =>
      rw [show importData (some (.jarr ps)) st = importPermissionsStep
          (.jobj [("permissions", .jarr ps1), ("roles", .jarr [])]) st by
        simp [importData, normalizeImport, hm]] at h
      obtain ⟨ps2, hm2, hst⟩ := importWrapped ps1 st st' h
      subst hst
      exact ⟨rfl, mapCoerce_twice ps ps1 ps2 hm hm2⟩
  · -- object-of-values shape
    intro fs h1 h
    cases hm : mapCoerce (fs.map Prod.snd) with
    | error e =>
      rw [show importData (some (.jobj fs)) st = (st, false) by
        simp [importData, normalizeImport, jget, h1, isTypeofObject, jvalues, hm]] at h
      simp at h
    | ok ps1 =>
      rw [show importData (some (.jobj fs)) st = importPermissionsStep
          (.jobj [("permissions", .jarr ps1), ("roles", .jarr [])]) st by
        simp [importData, normalizeImport, jget, h1, isTypeofObject, jvalues, hm]] at h
      obtain ⟨ps2, hm2, hst⟩ := importWrapped ps1 st st' h
      subst hst
      exact ⟨rfl, mapCoerce_twice (fs.map Prod.snd) ps1 ps2 hm hm2⟩
  · -- canonical shape
    intro fs ps h1 h
    rw [show importData (some (.jobj fs)) st = importPermissionsStep (.jobj fs) st by
      simp [importData, normalizeImport, jget, h1]] at h
    have h' : (match mapCoerce ps with
        | Except.error _ => ((st, false) : ImportState × Bool)
        | Except.ok ps1 =>
          importRolesStep (.jobj fs) { st with permissions := ps1 }) = (st', true) := by
      rw [importPermissionsStep] at h
      simp only [jget, h1] at h
      exact h
    clear h
    split at h'
    · simp at h'
    · rename_i ps1 hm
      have h'' : (match fs.lookup "roles" with
          | some (.jarr rs) =>
            (match mapCoerce rs with
              | Except.error _ => (({ st with permissions := ps1 }, false) : ImportState × Bool)
              | Except.ok rs' => ({ st with permissions := ps1, roles := rs' }, true))
          | _ => ({ st with permissions := ps1 }, true)) = (st', true) := by
        rw [importRolesStep] at h'
        simp only [jget] at h'
        exact h'
      clear h'
      split at h''
      · rename_i rs0 hlr
        split at h''
        · simp at h''
        · rename_i rs1 hmr
          injection h'' with ha hb
          constructor
          · rw [← ha]
            exact (mapCoerce_rel ps ps1 hm).imp (fun a b hab => coerceId_ok a b hab)
          · intro rs hrs
            rw [hlr] at hrs
            injection hrs with he
            injection he with he2
            subst he2
            rw [← ha]
            exact (mapCoerce_rel rs0 rs1 hmr).imp (fun a b hab => coerceId_ok a b hab)
      · rename_i hne
        injection h'' with ha hb
        constructor
        · rw [← ha]
          exact (mapCoerce_rel ps ps1 hm).imp (fun a b hab => coerceId_ok a b hab)
        · intro rs hrs
          exact absurd hrs (hne rs)

/-- Witness for amended C8: importing the bare one-element array with
numeric id 7 stores exactly one permission whose id is the string "7"
and an empty roles list; the stored record stands in the
stringified-id relation to the original. -/
theorem importData_ids_stringified_witness :
    (ImportState.mk [JValue.jobj [("id", .jstr "7"), ("name", .jstr "a.b")]] []).roles
        = [] ∧
    List.Forall₂ stringifiedFrom [JValue.jobj [("id", .jnum 7), ("name", .jstr "a.b")]]
      (ImportState.mk [JValue.jobj [("id", .jstr "7"), ("name", .jstr "a.b")]] []).permissions :=
  (importData_ids_stringified ⟨[], []⟩
      ⟨[JValue.jobj [("id", .jstr "7"), ("name", .jstr "a.b")]], []⟩).1
    [JValue.jobj [("id", .jnum 7), ("name", .jstr "a.b")]] rfl

end RoleTool
